import Mathlib

/-!
Verification of the AQI computation engine of the Aqi-predictor repository
(`src/pipeline/ml_feature.py`).

The engine is a small library of pure functions: a molar-mass table `MW`,
a breakpoint table `BREAKPOINTS`, unit conversions `ugm3_to_ppb` /
`ugm3_to_ppm`, a per-pollutant sub-index `calculate_sub_index`, and the
reduction `calculate_overall_aqi`.

Modelling choices:
* Python floats are modelled as exact rationals (ℚ); `np.nan` / a missing
  value is modelled as `none : Option ℚ`.
* A pandas row is modelled as an association list `List (String × Option ℚ)`:
  a key may be absent (`p in row` is false), or present with a NaN value
  (`some none` from the lookup), or present with a numeric value.
* `np.floor` is `Int.floor`; Python's `round` (round half to even) is
  `pyRound` below; Python ints in the tables are ℤ.
* A defined sub-index is `some (s : ℤ)` — Python's `round` and the literal
  `500` both produce ints — and NaN results are `none`.
-/

namespace Aqi

/-- A breakpoint row `((cl, ch), (al, ah))`: a concentration range paired
with an AQI index band, exactly as stored in `BREAKPOINTS`. -/
abbrev Row : Type := (ℚ × ℚ) × (ℤ × ℤ)

/-- The molar-mass dictionary `MW` of `ml_feature.py`. -/
def MW (p : String) : Option ℚ :=
  if p = "co" then some 28.01
  else if p = "o3" then some 48.00
  else if p = "no2" then some 46.01
  else if p = "so2" then some 64.07
  else none

/-- The `BREAKPOINTS` dictionary of `ml_feature.py`; an unknown key is
mapped to `[]` (in the source, `BREAKPOINTS[pollutant]` is only ever
evaluated for the six keys below). -/
def BREAKPOINTS (p : String) : List Row :=
  if p = "co" then
    [((0.0, 4.4), (0, 50)), ((4.5, 9.4), (51, 100)), ((9.5, 12.4), (101, 150)),
     ((12.5, 15.4), (151, 200)), ((15.5, 30.4), (201, 300)),
     ((30.5, 40.4), (301, 400)), ((40.5, 50.4), (401, 500))]
  else if p = "no2" then
    [((0, 53), (0, 50)), ((54, 100), (51, 100)), ((101, 360), (101, 150)),
     ((361, 649), (151, 200)), ((650, 1249), (201, 300)),
     ((1250, 1649), (301, 400)), ((1650, 2049), (401, 500))]
  else if p = "o3" then
    [((0, 54), (0, 50)), ((55, 70), (51, 100)), ((71, 85), (101, 150)),
     ((86, 105), (151, 200)), ((106, 200), (201, 300))]
  else if p = "so2" then
    [((0, 35), (0, 50)), ((36, 75), (51, 100)), ((76, 185), (101, 150)),
     ((186, 304), (151, 200)), ((305, 604), (201, 300)),
     ((605, 804), (301, 400)), ((805, 1004), (401, 500))]
  else if p = "pm2_5" then
    [((0.0, 9.0), (0, 50)), ((9.1, 35.4), (51, 100)), ((35.5, 55.4), (101, 150)),
     ((55.5, 150.4), (151, 200)), ((150.5, 250.4), (201, 300)),
     ((250.5, 350.4), (301, 400)), ((350.5, 500.4), (401, 500))]
  else if p = "pm10" then
    [((0, 54), (0, 50)), ((55, 154), (51, 100)), ((155, 254), (101, 150)),
     ((255, 354), (151, 200)), ((355, 424), (201, 300)),
     ((425, 504), (301, 400)), ((505, 604), (401, 500))]
  else []

/-- `ugm3_to_ppb` of `ml_feature.py`:
`if pollutant_name not in MW: return ugm3` /
`return (ugm3 * 24.45) / MW[pollutant_name]`. -/
def ugm3_to_ppb (ugm3 : ℚ) (pollutant_name : String) : ℚ :=
  match MW pollutant_name with
  | none => ugm3
  | some m => (ugm3 * 24.45) / m

/-- `ugm3_to_ppm` of `ml_feature.py`. -/
def ugm3_to_ppm (ugm3 : ℚ) (pollutant_name : String) : ℚ :=
  ugm3_to_ppb ugm3 pollutant_name / 1000

/-- Python 3's built-in `round` restricted to exact rational inputs:
round half to even. -/
def pyRound (q : ℚ) : ℤ :=
  if q - ⌊q⌋ < 1 / 2 then ⌊q⌋
  else if 1 / 2 < q - ⌊q⌋ then ⌊q⌋ + 1
  else if 2 ∣ ⌊q⌋ then ⌊q⌋ else ⌊q⌋ + 1

/-- The truncation step of `calculate_sub_index` (the `if/elif` chain on
the pollutant name); `none` for an unrecognized pollutant. -/
def truncateConc (c : ℚ) (pollutant : String) : Option ℚ :=
  if pollutant = "pm2_5" then some ((⌊c * 10⌋ : ℚ) / 10)
  else if pollutant = "pm10" then some ((⌊c⌋ : ℚ))
  else if pollutant = "co" then some ((⌊ugm3_to_ppm c pollutant * 10⌋ : ℚ) / 10)
  else if pollutant ∈ (["no2", "o3", "so2"] : List String) then
    some ((⌊ugm3_to_ppb c pollutant⌋ : ℚ))
  else none

/-- The breakpoint walk of `calculate_sub_index`: the first row of the list
whose range satisfies the guard `cl <= conc <= ch`, if any. -/
def findRow (tc : ℚ) : List Row → Option Row
  | [] => none
  | r :: rs => if r.1.1 ≤ tc ∧ tc ≤ r.1.2 then some r else findRow tc rs

/-- The linear interpolation `((ah - al) / (ch - cl)) * (conc - cl) + al`
of `calculate_sub_index` (before the final `round`). -/
def interp (r : Row) (tc : ℚ) : ℚ :=
  (((r.2.2 - r.2.1 : ℤ) : ℚ) / (r.1.2 - r.1.1)) * (tc - r.1.1) + (r.2.1 : ℚ)

/-- The part of `calculate_sub_index` after truncation: the `for` loop over
the breakpoint rows (returning on the first row with `cl <= conc <= ch`),
then `if conc > BREAKPOINTS[pollutant][-1][0][1]: return 500`, else NaN. -/
def subIndexFromTrunc (rows : List Row) (tc : ℚ) : Option ℤ :=
  match findRow tc rows with
  | some r => some (pyRound (interp r tc))
  | none =>
    match rows.getLast? with
    | some r => if r.1.2 < tc then some 500 else none
    | none => none

/-- `calculate_sub_index` of `ml_feature.py`: NaN check, truncation,
breakpoint walk, above-table clamp. -/
def calculate_sub_index (conc : Option ℚ) (pollutant : String) : Option ℤ :=
  match conc with
  | none => none
  | some c =>
    match truncateConc c pollutant with
    | none => none
    | some tc => subIndexFromTrunc (BREAKPOINTS pollutant) tc

/-- The pollutant list of `calculate_overall_aqi`. -/
def pollutants : List String := ["pm2_5", "pm10", "o3", "co", "no2", "so2"]

/-- An input record: an association list from column name to an optional
(possibly-NaN) value. -/
abbrev Record : Type := List (String × Option ℚ)

/-- `p in row` / `row[p]` combined: `some v` when the key is present with
value `v` (itself `none` for NaN), `none` when the key is absent. -/
def recordLookup (row : Record) (p : String) : Option (Option ℚ) :=
  match row with
  | [] => none
  | kv :: rest => if kv.1 = p then some kv.2 else recordLookup rest p

/-- The list comprehension of `calculate_overall_aqi`:
`[calculate_sub_index(row[p], p) for p in pollutants if p in row]`. -/
def subIndicesOf (row : Record) : List (Option ℤ) :=
  pollutants.filterMap (fun p => (recordLookup row p).map (fun c => calculate_sub_index c p))

/-- `[i for i in sub_indices if pd.notna(i)]`. -/
def validIndicesOf (row : Record) : List ℤ :=
  (subIndicesOf row).filterMap id

/-- `calculate_overall_aqi` of `ml_feature.py`:
`max(valid_indices) if valid_indices else np.nan`. -/
def calculate_overall_aqi (row : Record) : Option ℤ :=
  (validIndicesOf row).max?

/-! ### Helper lemmas: `pyRound` -/

theorem pyRound_intCast (n : ℤ) : pyRound (n : ℚ) = n := by
  simp [pyRound]

theorem pyRound_bounds (q : ℚ) : ⌊q⌋ ≤ pyRound q ∧ pyRound q ≤ ⌊q⌋ + 1 := by
  unfold pyRound
  split_ifs <;> omega

theorem pyRound_mono {x y : ℚ} (h : x ≤ y) : pyRound x ≤ pyRound y := by
  rcases lt_or_eq_of_le (Int.floor_mono h) with hf | hf
  · have h1 := (pyRound_bounds x).2
    have h2 := (pyRound_bounds y).1
    omega
  · unfold pyRound
    rw [← hf]
    have hxy : x - (⌊x⌋ : ℚ) ≤ y - (⌊x⌋ : ℚ) := by linarith
    split_ifs <;> first | omega | linarith

theorem pyRound_le_of_le {x : ℚ} {n : ℤ} (h : x ≤ (n : ℚ)) : pyRound x ≤ n := by
  have h2 := pyRound_mono h
  rwa [pyRound_intCast] at h2

theorem le_pyRound_of_le {x : ℚ} {n : ℤ} (h : (n : ℚ) ≤ x) : n ≤ pyRound x := by
  have h2 := pyRound_mono h
  rwa [pyRound_intCast] at h2

/-! ### Helper lemmas: `interp` -/

theorem interp_slope_nonneg (r : Row) (hc : r.1.1 < r.1.2) (ha : r.2.1 ≤ r.2.2) :
    0 ≤ (((r.2.2 - r.2.1 : ℤ) : ℚ) / (r.1.2 - r.1.1)) := by
  apply div_nonneg
  · exact_mod_cast sub_nonneg.2 ha
  · linarith

theorem le_interp (r : Row) (hc : r.1.1 < r.1.2) (ha : r.2.1 ≤ r.2.2)
    {tc : ℚ} (h1 : r.1.1 ≤ tc) : (r.2.1 : ℚ) ≤ interp r tc := by
  have hs := interp_slope_nonneg r hc ha
  have h2 := mul_nonneg hs (sub_nonneg.2 h1)
  unfold interp
  linarith

theorem interp_le (r : Row) (hc : r.1.1 < r.1.2) (ha : r.2.1 ≤ r.2.2)
    {tc : ℚ} (h2 : tc ≤ r.1.2) : interp r tc ≤ (r.2.2 : ℚ) := by
  have hs := interp_slope_nonneg r hc ha
  have h3 : (((r.2.2 - r.2.1 : ℤ) : ℚ) / (r.1.2 - r.1.1)) * (tc - r.1.1) ≤
      (((r.2.2 - r.2.1 : ℤ) : ℚ) / (r.1.2 - r.1.1)) * (r.1.2 - r.1.1) :=
    mul_le_mul_of_nonneg_left (by linarith) hs
  have h4 : (((r.2.2 - r.2.1 : ℤ) : ℚ) / (r.1.2 - r.1.1)) * (r.1.2 - r.1.1) =
      ((r.2.2 - r.2.1 : ℤ) : ℚ) := div_mul_cancel₀ _ (by linarith)
  have h5 : ((r.2.2 - r.2.1 : ℤ) : ℚ) = (r.2.2 : ℚ) - (r.2.1 : ℚ) := by push_cast; ring
  unfold interp
  linarith

theorem interp_mono (r : Row) (hc : r.1.1 < r.1.2) (ha : r.2.1 ≤ r.2.2)
    {tc1 tc2 : ℚ} (h : tc1 ≤ tc2) : interp r tc1 ≤ interp r tc2 := by
  have hs := interp_slope_nonneg r hc ha
  have h2 := mul_le_mul_of_nonneg_left (sub_le_sub_right h r.1.1) hs
  unfold interp
  linarith

/-! ### Helper lemmas: `findRow` -/

theorem findRow_eq_some {tc : ℚ} {rows : List Row} {r : Row}
    (h : findRow tc rows = some r) : r ∈ rows ∧ r.1.1 ≤ tc ∧ tc ≤ r.1.2 := by
  induction rows with
  | nil => simp [findRow] at h
  | cons a as ih =>
    by_cases hc : a.1.1 ≤ tc ∧ tc ≤ a.1.2
    · rw [findRow, if_pos hc] at h
      injection h with h2
      subst h2
      exact ⟨List.mem_cons_self _ _, hc⟩
    · rw [findRow, if_neg hc] at h
      have h2 := ih h
      exact ⟨List.mem_cons_of_mem a h2.1, h2.2⟩

theorem findRow_eq_none {tc : ℚ} {rows : List Row}
    (h : ∀ r ∈ rows, ¬(r.1.1 ≤ tc ∧ tc ≤ r.1.2)) : findRow tc rows = none := by
  induction rows with
  | nil => rfl
  | cons a as ih =>
    rw [findRow, if_neg (h a (List.mem_cons_self a as))]
    exact ih (fun r hr => h r (List.mem_cons_of_mem a hr))

theorem findRow_isSome {tc : ℚ} {rows : List Row} {r : Row}
    (hmem : r ∈ rows) (hm : r.1.1 ≤ tc ∧ tc ≤ r.1.2) :
    ∃ r', findRow tc rows = some r' := by
  induction rows with
  | nil => simp at hmem
  | cons a as ih =>
    by_cases hc : a.1.1 ≤ tc ∧ tc ≤ a.1.2
    · exact ⟨a, by rw [findRow, if_pos hc]⟩
    · rcases List.mem_cons.1 hmem with rfl | hmem2
      · exact absurd hm hc
      · obtain ⟨r', hr'⟩ := ih hmem2
        exact ⟨r', by rw [findRow, if_neg hc]; exact hr'⟩

/-! ### Table-shape predicates and master lemmas about `subIndexFromTrunc` -/

/-- Well-formedness of a breakpoint row list: nonempty ranges, ascending
index band inside 0–500. -/
def RowsWF (rows : List Row) : Prop :=
  ∀ r ∈ rows, r.1.1 < r.1.2 ∧ 0 ≤ r.2.1 ∧ r.2.1 ≤ r.2.2 ∧ r.2.2 ≤ 500

/-- Separation: any earlier row lies strictly below any later row, in both
the concentration ranges and the index bands. -/
def RowsSep (rows : List Row) : Prop :=
  List.Pairwise (fun r r' => r.1.2 < r'.1.1 ∧ r.2.2 ≤ r'.2.1) rows

theorem rowsSep_cases {rows : List Row} (hsep : RowsSep rows) {r1 r2 : Row}
    (h1 : r1 ∈ rows) (h2 : r2 ∈ rows) (hne : r1 ≠ r2) :
    (r1.1.2 < r2.1.1 ∧ r1.2.2 ≤ r2.2.1) ∨ (r2.1.2 < r1.1.1 ∧ r2.2.2 ≤ r1.2.1) := by
  have hsym : Symmetric (fun r r' : Row =>
      (r.1.2 < r'.1.1 ∧ r.2.2 ≤ r'.2.1) ∨ (r'.1.2 < r.1.1 ∧ r'.2.2 ≤ r.2.1)) :=
    fun _ _ h => h.symm
  have hp : List.Pairwise (fun r r' : Row =>
      (r.1.2 < r'.1.1 ∧ r.2.2 ≤ r'.2.1) ∨ (r'.1.2 < r.1.1 ∧ r'.2.2 ≤ r.2.1)) rows :=
    List.Pairwise.imp (fun h => Or.inl h) hsep
  exact hp.forall hsym h1 h2 hne

theorem subIndexFromTrunc_of_findRow {rows : List Row} {tc : ℚ} {r : Row}
    (hf : findRow tc rows = some r) :
    subIndexFromTrunc rows tc = some (pyRound (interp r tc)) := by
  simp only [subIndexFromTrunc, hf]

theorem pyRound_interp_bounds {r : Row} (hc : r.1.1 < r.1.2) (hab : r.2.1 ≤ r.2.2)
    {tc : ℚ} (h1 : r.1.1 ≤ tc) (h2 : tc ≤ r.1.2) :
    r.2.1 ≤ pyRound (interp r tc) ∧ pyRound (interp r tc) ≤ r.2.2 :=
  ⟨le_pyRound_of_le (le_interp r hc hab h1), pyRound_le_of_le (interp_le r hc hab h2)⟩

/-- Saturation: a truncated value above the last row's upper concentration
bound yields exactly 500. -/
theorem subIndexFromTrunc_saturate {rows : List Row} {rl : Row}
    (hl : rows.getLast? = some rl) (hch : ∀ r ∈ rows, r.1.2 ≤ rl.1.2)
    {tc : ℚ} (h : rl.1.2 < tc) : subIndexFromTrunc rows tc = some 500 := by
  have hnone : findRow tc rows = none := by
    apply findRow_eq_none
    intro r hr hm
    have h2 := hch r hr
    linarith [hm.2]
  simp only [subIndexFromTrunc, hnone, hl, if_pos h]

/-- Coverage: if the truncated value `tc` lies on the grid of step `s`, the
rows' upper bounds lie on that grid, consecutive rows are contiguous at
step `s`, and `tc` lies between the first row's lower bound and the last
row's upper bound, then some row's range contains `tc`. -/
theorem findRow_covers (s : ℚ) (hs : 0 < s) :
    ∀ (rows : List Row) (tc : ℚ) (a : ℤ), tc = (a : ℚ) * s →
    (∀ r ∈ rows, r.1.2 = ((⌊r.1.2 / s⌋ : ℤ) : ℚ) * s) →
    List.Chain' (fun r r' => r'.1.1 = r.1.2 + s) rows →
    ∀ r0, rows.head? = some r0 → r0.1.1 ≤ tc →
    ∀ rl, rows.getLast? = some rl → tc ≤ rl.1.2 →
    ∃ r ∈ rows, r.1.1 ≤ tc ∧ tc ≤ r.1.2 := by
  intro rows
  induction rows with
  | nil =>
    intro tc a hta hgrid hchain r0 h0
    simp at h0
  | cons r1 rest ih =>
    intro tc a hta hgrid hchain r0 h0 hle rl hl hge
    rw [List.head?_cons] at h0
    injection h0 with h0
    subst h0
    by_cases hc : tc ≤ r1.1.2
    · exact ⟨r1, List.mem_cons_self _ _, hle, hc⟩
    · push_neg at hc
      cases rest with
      | nil =>
        rw [List.getLast?_singleton] at hl
        injection hl with hl
        subst hl
        linarith
      | cons r2 rest2 =>
        have hch2 : r2.1.1 = r1.1.2 + s := (List.chain'_cons.1 hchain).1
        have hb := hgrid r1 (List.mem_cons_self _ _)
        have hba : ((⌊r1.1.2 / s⌋ : ℤ) : ℚ) * s < (a : ℚ) * s := by
          rw [← hb, ← hta]
          exact hc
        have hba2 : ⌊r1.1.2 / s⌋ < a := by
          have h3 := (mul_lt_mul_right hs).1 hba
          exact_mod_cast h3
        have hba3 : ((⌊r1.1.2 / s⌋ : ℤ) : ℚ) + 1 ≤ (a : ℚ) := by
          exact_mod_cast hba2
        have hstep : r1.1.2 + s ≤ tc := by
          rw [hb, hta]
          calc ((⌊r1.1.2 / s⌋ : ℤ) : ℚ) * s + s = (((⌊r1.1.2 / s⌋ : ℤ) : ℚ) + 1) * s := by ring
          _ ≤ (a : ℚ) * s := mul_le_mul_of_nonneg_right hba3 hs.le
        have h2le : r2.1.1 ≤ tc := by
          rw [hch2]
          linarith
        have hl2 : (r2 :: rest2).getLast? = some rl := by
          rwa [List.getLast?_cons_cons] at hl
        obtain ⟨r, hr, hm⟩ := ih tc a hta
          (fun r hr => hgrid r (List.mem_cons_of_mem _ hr))
          (List.chain'_cons.1 hchain).2 r2 List.head?_cons h2le rl hl2 hge
        exact ⟨r, List.mem_cons_of_mem _ hr, hm⟩

/-- Definedness: a grid-aligned truncated value at or above the first row's
lower bound always yields a defined sub-index (a matching row, or the
saturation clamp). -/
theorem subIndexFromTrunc_defined {rows : List Row} (s : ℚ) (hs : 0 < s)
    {tc : ℚ} (a : ℤ) (hta : tc = (a : ℚ) * s)
    (hgrid : ∀ r ∈ rows, r.1.2 = ((⌊r.1.2 / s⌋ : ℤ) : ℚ) * s)
    (hchain : List.Chain' (fun r r' => r'.1.1 = r.1.2 + s) rows)
    {r0 : Row} (h0 : rows.head? = some r0) (hle : r0.1.1 ≤ tc) :
    ∃ z, subIndexFromTrunc rows tc = some z := by
  cases hf : findRow tc rows with
  | some r => exact ⟨pyRound (interp r tc), by simp only [subIndexFromTrunc, hf]⟩
  | none =>
    have hne : rows ≠ [] := by
      intro hnil
      rw [hnil] at h0
      simp at h0
    obtain ⟨rl, hl⟩ := Option.isSome_iff_exists.1 (List.getLast?_isSome.2 hne)
    by_cases hge : tc ≤ rl.1.2
    · obtain ⟨r, hr, hm⟩ := findRow_covers s hs rows tc a hta hgrid hchain r0 h0 hle rl hl hge
      obtain ⟨r', hr'⟩ := findRow_isSome hr hm
      rw [hf] at hr'
      cases hr'
    · push_neg at hge
      exact ⟨500, by simp only [subIndexFromTrunc, hf, hl, if_pos hge]⟩

/-- Range: any defined result lies in 0–500. -/
theorem subIndexFromTrunc_range {rows : List Row} (hwf : RowsWF rows)
    {tc : ℚ} {z : ℤ} (h : subIndexFromTrunc rows tc = some z) : 0 ≤ z ∧ z ≤ 500 := by
  cases hf : findRow tc rows with
  | some r =>
    simp only [subIndexFromTrunc, hf] at h
    injection h with h
    subst h
    obtain ⟨hm, h1, h2⟩ := findRow_eq_some hf
    obtain ⟨hc, hal, hab, hah⟩ := hwf r hm
    have hb := pyRound_interp_bounds hc hab h1 h2
    omega
  | none =>
    simp only [subIndexFromTrunc, hf] at h
    cases hl : rows.getLast? with
    | some rl =>
      simp only [hl] at h
      split_ifs at h with hgt
      · injection h with h
        omega
    | none =>
      simp only [hl] at h
      cases h

/-- Monotonicity of `subIndexFromTrunc` in the truncated value, given a
well-formed, separated table whose last row dominates all rows. -/
theorem subIndexFromTrunc_mono {rows : List Row} (hwf : RowsWF rows) (hsep : RowsSep rows)
    (hlast : ∀ rl, rows.getLast? = some rl → ∀ r ∈ rows, r.1.2 ≤ rl.1.2)
    {tc1 tc2 : ℚ} (h : tc1 ≤ tc2) {z1 z2 : ℤ}
    (h1 : subIndexFromTrunc rows tc1 = some z1)
    (h2 : subIndexFromTrunc rows tc2 = some z2) : z1 ≤ z2 := by
  cases hf1 : findRow tc1 rows with
  | some r1 =>
    simp only [subIndexFromTrunc, hf1] at h1
    injection h1 with h1
    subst h1
    obtain ⟨hm1, ha1, hb1⟩ := findRow_eq_some hf1
    obtain ⟨hc1, hal1, hab1, hah1⟩ := hwf r1 hm1
    cases hf2 : findRow tc2 rows with
    | some r2 =>
      simp only [subIndexFromTrunc, hf2] at h2
      injection h2 with h2
      subst h2
      obtain ⟨hm2, ha2, hb2⟩ := findRow_eq_some hf2
      obtain ⟨hc2, hal2, hab2, hah2⟩ := hwf r2 hm2
      by_cases heq : r1 = r2
      · subst heq
        exact pyRound_mono (interp_mono r1 hc1 hab1 h)
      · rcases rowsSep_cases hsep hm1 hm2 heq with ⟨hcc, hii⟩ | ⟨hcc, hii⟩
        · have k1 : pyRound (interp r1 tc1) ≤ r1.2.2 :=
            pyRound_le_of_le (interp_le r1 hc1 hab1 hb1)
          have k2 : r2.2.1 ≤ pyRound (interp r2 tc2) :=
            le_pyRound_of_le (le_interp r2 hc2 hab2 ha2)
          omega
        · exfalso
          linarith [hb2, ha1]
    | none =>
      simp only [subIndexFromTrunc, hf2] at h2
      cases hl : rows.getLast? with
      | some rl =>
        simp only [hl] at h2
        split_ifs at h2 with hgt
        · injection h2 with h2
          have k1 : pyRound (interp r1 tc1) ≤ r1.2.2 :=
            pyRound_le_of_le (interp_le r1 hc1 hab1 hb1)
          omega
      | none =>
        simp only [hl] at h2
        cases h2
  | none =>
    simp only [subIndexFromTrunc, hf1] at h1
    cases hl : rows.getLast? with
    | none =>
      simp only [hl] at h1
      cases h1
    | some rl =>
      simp only [hl] at h1
      split_ifs at h1 with hgt1
      · injection h1 with h1
        have hf2 : findRow tc2 rows = none := by
          apply findRow_eq_none
          intro r hr hm
          have h3 := hlast rl hl r hr
          linarith [hm.2]
        simp only [subIndexFromTrunc, hf2, hl] at h2
        split_ifs at h2 with hgt2
        injection h2 with h2
        omega

/-! ### Concrete facts about the six breakpoint tables -/

/-- The truncation granularity of each pollutant: 0.1 for the two
floor-to-one-decimal pollutants, 1 for the floor-to-integer ones. -/
def stepOf (p : String) : ℚ :=
  if p = "pm2_5" ∨ p = "co" then 1 / 10 else 1

/-- The lowest tabulated `cl` of a pollutant's table. -/
def lowCl (p : String) : ℚ :=
  (((BREAKPOINTS p).head?).map (fun r => r.1.1)).getD 0

/-- The highest tabulated `ch` of a pollutant's table
(`BREAKPOINTS[pollutant][-1][0][1]` in the source). -/
def highCh (p : String) : ℚ :=
  (((BREAKPOINTS p).getLast?).map (fun r => r.1.2)).getD 0

theorem mem_pollutants_iff (p : String) :
    p ∈ pollutants ↔
      p = "pm2_5" ∨ p = "pm10" ∨ p = "o3" ∨ p = "co" ∨ p = "no2" ∨ p = "so2" := by
  simp [pollutants]

theorem tables_wf : ∀ p ∈ pollutants, RowsWF (BREAKPOINTS p) := by
  intro p hp
  rw [mem_pollutants_iff] at hp
  rcases hp with rfl | rfl | rfl | rfl | rfl | rfl <;>
    simp [RowsWF, BREAKPOINTS, List.forall_mem_cons] <;> norm_num

theorem tables_sep : ∀ p ∈ pollutants, RowsSep (BREAKPOINTS p) := by
  intro p hp
  rw [mem_pollutants_iff] at hp
  rcases hp with rfl | rfl | rfl | rfl | rfl | rfl <;>
    simp [RowsSep, BREAKPOINTS, List.pairwise_cons] <;> norm_num

theorem tables_chain : ∀ p ∈ pollutants,
    List.Chain' (fun r r' => r'.1.1 = r.1.2 + stepOf p) (BREAKPOINTS p) := by
  intro p hp
  rw [mem_pollutants_iff] at hp
  rcases hp with rfl | rfl | rfl | rfl | rfl | rfl <;>
    simp [BREAKPOINTS, stepOf, List.chain'_cons] <;> norm_num

theorem tables_grid : ∀ p ∈ pollutants,
    ∀ r ∈ BREAKPOINTS p, r.1.2 = ((⌊r.1.2 / stepOf p⌋ : ℤ) : ℚ) * stepOf p := by
  intro p hp
  rw [mem_pollutants_iff] at hp
  rcases hp with rfl | rfl | rfl | rfl | rfl | rfl <;>
    simp [BREAKPOINTS, stepOf, List.forall_mem_cons] <;> norm_num

theorem tables_head : ∀ p ∈ pollutants,
    ∃ r0, (BREAKPOINTS p).head? = some r0 ∧ r0.1.1 = lowCl p := by
  intro p hp
  rw [mem_pollutants_iff] at hp
  rcases hp with rfl | rfl | rfl | rfl | rfl | rfl <;> simp [BREAKPOINTS, lowCl]

theorem tables_last : ∀ p ∈ pollutants,
    ∃ rl, (BREAKPOINTS p).getLast? = some rl ∧ rl.1.2 = highCh p := by
  intro p hp
  rw [mem_pollutants_iff] at hp
  rcases hp with rfl | rfl | rfl | rfl | rfl | rfl <;> simp [BREAKPOINTS, highCh]

theorem tables_last_dom : ∀ p ∈ pollutants,
    ∀ r ∈ BREAKPOINTS p, r.1.2 ≤ highCh p := by
  intro p hp
  rw [mem_pollutants_iff] at hp
  rcases hp with rfl | rfl | rfl | rfl | rfl | rfl <;>
    simp [BREAKPOINTS, highCh, List.forall_mem_cons] <;> norm_num

theorem tables_low : ∀ p ∈ pollutants,
    ∀ r ∈ BREAKPOINTS p, lowCl p ≤ r.1.1 := by
  intro p hp
  rw [mem_pollutants_iff] at hp
  rcases hp with rfl | rfl | rfl | rfl | rfl | rfl <;>
    simp [BREAKPOINTS, lowCl, List.forall_mem_cons] <;> norm_num

theorem tables_lowCl : ∀ p ∈ pollutants, lowCl p = 0 := by
  intro p hp
  rw [mem_pollutants_iff] at hp
  rcases hp with rfl | rfl | rfl | rfl | rfl | rfl <;> simp [BREAKPOINTS, lowCl] <;> norm_num

theorem lowCl_le_highCh : ∀ p ∈ pollutants, lowCl p ≤ highCh p := by
  intro p hp
  rw [mem_pollutants_iff] at hp
  rcases hp with rfl | rfl | rfl | rfl | rfl | rfl <;>
    simp [BREAKPOINTS, lowCl, highCh] <;> norm_num

/-! ### The truncation step, pollutant by pollutant -/

theorem truncateConc_pm2_5 (c : ℚ) :
    truncateConc c "pm2_5" = some ((⌊c * 10⌋ : ℚ) / 10) := by
  simp [truncateConc]

theorem truncateConc_pm10 (c : ℚ) :
    truncateConc c "pm10" = some ((⌊c⌋ : ℚ)) := by
  simp [truncateConc]

theorem truncateConc_co (c : ℚ) :
    truncateConc c "co" = some ((⌊c * 24.45 / 28.01 / 1000 * 10⌋ : ℚ) / 10) := by
  simp [truncateConc, ugm3_to_ppm, ugm3_to_ppb, MW]

theorem truncateConc_no2 (c : ℚ) :
    truncateConc c "no2" = some ((⌊c * 24.45 / 46.01⌋ : ℚ)) := by
  simp [truncateConc, ugm3_to_ppb, MW]

theorem truncateConc_o3 (c : ℚ) :
    truncateConc c "o3" = some ((⌊c * 24.45 / 48.00⌋ : ℚ)) := by
  simp [truncateConc, ugm3_to_ppb, MW]

theorem truncateConc_so2 (c : ℚ) :
    truncateConc c "so2" = some ((⌊c * 24.45 / 64.07⌋ : ℚ)) := by
  simp [truncateConc, ugm3_to_ppb, MW]

theorem truncateConc_none_iff (c : ℚ) (p : String) :
    truncateConc c p = none ↔ p ∉ pollutants := by
  rw [mem_pollutants_iff]
  constructor
  · intro h hp
    rcases hp with rfl | rfl | rfl | rfl | rfl | rfl <;> simp [truncateConc] at h
  · intro hp
    push_neg at hp
    obtain ⟨n1, n2, n3, n4, n5, n6⟩ := hp
    simp [truncateConc, n1, n2, n3, n4, n5, n6]

theorem truncate_mono : ∀ p ∈ pollutants, ∀ c1 c2 : ℚ, c1 ≤ c2 →
    ∀ t1 t2 : ℚ, truncateConc c1 p = some t1 → truncateConc c2 p = some t2 → t1 ≤ t2 := by
  intro p hp c1 c2 h t1 t2 h1 h2
  rw [mem_pollutants_iff] at hp
  rcases hp with rfl | rfl | rfl | rfl | rfl | rfl
  · rw [truncateConc_pm2_5] at h1 h2
    injection h1 with h1
    injection h2 with h2
    subst h1
    subst h2
    gcongr
  · rw [truncateConc_pm10] at h1 h2
    injection h1 with h1
    injection h2 with h2
    subst h1
    subst h2
    have h3 := Int.floor_mono h
    exact_mod_cast h3
  · rw [truncateConc_o3] at h1 h2
    injection h1 with h1
    injection h2 with h2
    subst h1
    subst h2
    have h3 : c1 * 24.45 / 48.00 ≤ c2 * 24.45 / 48.00 := by gcongr
    have h4 := Int.floor_mono h3
    exact_mod_cast h4
  · rw [truncateConc_co] at h1 h2
    injection h1 with h1
    injection h2 with h2
    subst h1
    subst h2
    have h3 : c1 * 24.45 / 28.01 / 1000 * 10 ≤ c2 * 24.45 / 28.01 / 1000 * 10 := by
      gcongr
    gcongr
  · rw [truncateConc_no2] at h1 h2
    injection h1 with h1
    injection h2 with h2
    subst h1
    subst h2
    have h3 : c1 * 24.45 / 46.01 ≤ c2 * 24.45 / 46.01 := by gcongr
    have h4 := Int.floor_mono h3
    exact_mod_cast h4
  · rw [truncateConc_so2] at h1 h2
    injection h1 with h1
    injection h2 with h2
    subst h1
    subst h2
    have h3 : c1 * 24.45 / 64.07 ≤ c2 * 24.45 / 64.07 := by gcongr
    have h4 := Int.floor_mono h3
    exact_mod_cast h4

/-- Every truncated value is aligned to the pollutant's grid. -/
theorem truncate_grid : ∀ p ∈ pollutants, ∀ c tc : ℚ, truncateConc c p = some tc →
    ∃ a : ℤ, tc = (a : ℚ) * stepOf p := by
  intro p hp c tc h
  rw [mem_pollutants_iff] at hp
  rcases hp with rfl | rfl | rfl | rfl | rfl | rfl
  · rw [truncateConc_pm2_5] at h
    injection h with h
    exact ⟨⌊c * 10⌋, by rw [← h]; simp [stepOf]; ring⟩
  · rw [truncateConc_pm10] at h
    injection h with h
    exact ⟨⌊c⌋, by rw [← h]; simp [stepOf]⟩
  · rw [truncateConc_o3] at h
    injection h with h
    exact ⟨⌊c * 24.45 / 48.00⌋, by rw [← h]; simp [stepOf]⟩
  · rw [truncateConc_co] at h
    injection h with h
    exact ⟨⌊c * 24.45 / 28.01 / 1000 * 10⌋, by rw [← h]; simp [stepOf]; ring⟩
  · rw [truncateConc_no2] at h
    injection h with h
    exact ⟨⌊c * 24.45 / 46.01⌋, by rw [← h]; simp [stepOf]⟩
  · rw [truncateConc_so2] at h
    injection h with h
    exact ⟨⌊c * 24.45 / 64.07⌋, by rw [← h]; simp [stepOf]⟩

/-- A negative concentration truncates to a negative value. -/
theorem truncate_neg : ∀ p ∈ pollutants, ∀ c tc : ℚ, c < 0 →
    truncateConc c p = some tc → tc < 0 := by
  intro p hp c tc hc h
  rw [mem_pollutants_iff] at hp
  rcases hp with rfl | rfl | rfl | rfl | rfl | rfl
  · rw [truncateConc_pm2_5] at h
    injection h with h
    have h2 : (⌊c * 10⌋ : ℚ) ≤ c * 10 := Int.floor_le _
    rw [← h]
    nlinarith
  · rw [truncateConc_pm10] at h
    injection h with h
    have h2 : (⌊c⌋ : ℚ) ≤ c := Int.floor_le _
    rw [← h]
    linarith
  · rw [truncateConc_o3] at h
    injection h with h
    have h3 : c * 24.45 / 48.00 < 0 := by
      apply div_neg_of_neg_of_pos _ (by norm_num)
      nlinarith
    have h2 : (⌊c * 24.45 / 48.00⌋ : ℚ) ≤ c * 24.45 / 48.00 := Int.floor_le _
    rw [← h]
    linarith
  · rw [truncateConc_co] at h
    injection h with h
    have h3 : c * 24.45 / 28.01 / 1000 * 10 < 0 := by
      have h4 : c * 24.45 / 28.01 / 1000 < 0 := by
        apply div_neg_of_neg_of_pos _ (by norm_num)
        apply div_neg_of_neg_of_pos _ (by norm_num)
        nlinarith
      nlinarith
    have h2 : (⌊c * 24.45 / 28.01 / 1000 * 10⌋ : ℚ) ≤ c * 24.45 / 28.01 / 1000 * 10 :=
      Int.floor_le _
    rw [← h]
    nlinarith
  · rw [truncateConc_no2] at h
    injection h with h
    have h3 : c * 24.45 / 46.01 < 0 := by
      apply div_neg_of_neg_of_pos _ (by norm_num)
      nlinarith
    have h2 : (⌊c * 24.45 / 46.01⌋ : ℚ) ≤ c * 24.45 / 46.01 := Int.floor_le _
    rw [← h]
    linarith
  · rw [truncateConc_so2] at h
    injection h with h
    have h3 : c * 24.45 / 64.07 < 0 := by
      apply div_neg_of_neg_of_pos _ (by norm_num)
      nlinarith
    have h2 : (⌊c * 24.45 / 64.07⌋ : ℚ) ≤ c * 24.45 / 64.07 := Int.floor_le _
    rw [← h]
    linarith

/-! ### Remaining shared helpers -/

theorem stepOf_pos (p : String) : 0 < stepOf p := by
  unfold stepOf
  split_ifs <;> norm_num

theorem mem_pollutants_of_truncate {c tc : ℚ} {p : String}
    (h : truncateConc c p = some tc) : p ∈ pollutants := by
  by_contra hnp
  have h2 := (truncateConc_none_iff c p).2 hnp
  rw [h] at h2
  cases h2

/-- A truncated value strictly below the lowest tabulated `cl` yields an
undefined sub-index. -/
theorem sub_index_below_table {c tc : ℚ} {p : String}
    (ht : truncateConc c p = some tc) (hlow : tc < lowCl p) :
    calculate_sub_index (some c) p = none := by
  have hp : p ∈ pollutants := mem_pollutants_of_truncate ht
  have hnone : findRow tc (BREAKPOINTS p) = none := by
    apply findRow_eq_none
    intro r hr hm
    have h2 := tables_low p hp r hr
    linarith [hm.1]
  obtain ⟨rl, hl, hrl⟩ := tables_last p hp
  have hnotgt : ¬ (rl.1.2 < tc) := by
    push_neg
    have h3 := lowCl_le_highCh p hp
    rw [hrl]
    linarith
  simp only [calculate_sub_index, ht, subIndexFromTrunc, hnone, hl, if_neg hnotgt]

/-- The last-row dominance hypothesis of `subIndexFromTrunc_mono`, for the
actual tables. -/
theorem tables_last_dom_all (p : String) (hp : p ∈ pollutants) :
    ∀ rl, (BREAKPOINTS p).getLast? = some rl → ∀ r ∈ BREAKPOINTS p, r.1.2 ≤ rl.1.2 := by
  intro rl hl r hr
  obtain ⟨rl2, hl2, hrl2⟩ := tables_last p hp
  rw [hl] at hl2
  injection hl2 with hl2
  subst hl2
  rw [hrl2]
  exact tables_last_dom p hp r hr

theorem validIndicesOf_single (p : String) (c : Option ℚ) (hp : p ∈ pollutants) :
    subIndicesOf [(p, c)] = [calculate_sub_index c p] := by
  rw [mem_pollutants_iff] at hp
  rcases hp with rfl | rfl | rfl | rfl | rfl | rfl <;>
    simp [subIndicesOf, pollutants, recordLookup]

/-! ## Claims -/

/-- C3: for every recognized pollutant, once the converted-and-truncated
value exceeds the highest tabulated `ch` of that pollutant's breakpoint
table, `calculate_sub_index` returns exactly 500, for arbitrarily large
concentrations. -/
theorem sub_index_saturates_above_table (p : String) (hp : p ∈ pollutants)
    (c tc : ℚ) (htrunc : truncateConc c p = some tc) (hhigh : highCh p < tc) :
    calculate_sub_index (some c) p = some 500 := by
  obtain ⟨rl, hl, hrl⟩ := tables_last p hp
  have hdom : ∀ r ∈ BREAKPOINTS p, r.1.2 ≤ rl.1.2 := by
    intro r hr
    rw [hrl]
    exact tables_last_dom p hp r hr
  have h5 := subIndexFromTrunc_saturate hl hdom (show rl.1.2 < tc by rw [hrl]; exact hhigh)
  simp only [calculate_sub_index, htrunc]
  exact h5

/-- Witness for C3: a pm10 concentration of 100000 µg/m³ truncates to
100000, far above the top bound 604, and yields 500. -/
theorem sub_index_saturates_above_table_witness :
    calculate_sub_index (some 100000) "pm10" = some 500 := by
  apply sub_index_saturates_above_table "pm10" (by simp [pollutants]) 100000 100000
  · rw [truncateConc_pm10]
    norm_num
  · simp [highCh, BREAKPOINTS]
    norm_num

/-- Upper index bounds of the five o3 rows. -/
theorem o3_rows_ah_le_300 : ∀ r ∈ BREAKPOINTS "o3", r.2.2 ≤ 300 := by
  intro r hr
  simp [BREAKPOINTS] at hr
  rcases hr with rfl | rfl | rfl | rfl | rfl <;> norm_num

/-- C10: the o3 table's last row is `(106,200)→(201,300)`; any o3
concentration whose truncated ppb value exceeds 200 yields exactly 500; and
no o3 sub-index strictly between 300 and 500 is ever produced. -/
theorem o3_band_gap :
    (BREAKPOINTS "o3").getLast? = some ((106, 200), (201, 300)) ∧
    (∀ c tc : ℚ, truncateConc c "o3" = some tc → 200 < tc →
      calculate_sub_index (some c) "o3" = some 500) ∧
    (∀ (c : ℚ) (z : ℤ), calculate_sub_index (some c) "o3" = some z →
      z ≤ 300 ∨ z = 500) := by
  have hp : "o3" ∈ pollutants := by simp [pollutants]
  refine ⟨by simp [BREAKPOINTS], ?_, ?_⟩
  · intro c tc ht hgt
    obtain ⟨rl, hl, hrl⟩ := tables_last "o3" hp
    have hdom : ∀ r ∈ BREAKPOINTS "o3", r.1.2 ≤ rl.1.2 := by
      intro r hr
      rw [hrl]
      exact tables_last_dom "o3" hp r hr
    have hrl200 : rl.1.2 = 200 := by
      rw [hrl]
      simp [highCh, BREAKPOINTS]
    have h5 := subIndexFromTrunc_saturate hl hdom (show rl.1.2 < tc by rw [hrl200]; exact hgt)
    simp only [calculate_sub_index, ht]
    exact h5
  · intro c z hz
    cases ht : truncateConc c "o3" with
    | none =>
      simp only [calculate_sub_index, ht] at hz
      cases hz
    | some tc =>
      simp only [calculate_sub_index, ht] at hz
      cases hf : findRow tc (BREAKPOINTS "o3") with
      | some r =>
        simp only [subIndexFromTrunc, hf] at hz
        injection hz with hz
        subst hz
        left
        obtain ⟨hm, h1, h2⟩ := findRow_eq_some hf
        obtain ⟨hlt, hal, hab, hah⟩ := tables_wf "o3" hp r hm
        have hk := pyRound_le_of_le (interp_le r hlt hab h2)
        have h300 := o3_rows_ah_le_300 r hm
        omega
      | none =>
        simp only [subIndexFromTrunc, hf] at hz
        cases hl : (BREAKPOINTS "o3").getLast? with
        | some rl =>
          simp only [hl] at hz
          split_ifs at hz with hgt
          injection hz with hz
          right
          omega
        | none =>
          simp only [hl] at hz
          cases hz

/-- Witness for C10: o3 at 1000 µg/m³ truncates to ⌊1000·24.45/48⌋ = 509 >
200 and yields 500. -/
theorem o3_band_gap_witness : calculate_sub_index (some 1000) "o3" = some 500 := by
  apply o3_band_gap.2.1 1000 509
  · rw [truncateConc_o3]
    norm_num
  · norm_num

/-- C7: the concrete scenarios — co at 5000 µg/m³ converts to ≈ 4.365 ppm,
floors to 4.3, lands in the row `(0.0,4.4)→(0,50)` and yields 49; the
record `{pm2_5: 12.0, pm10: 600, co: 5000}` yields max(56, 496, 49) = 496. -/
theorem concrete_co_scenario :
    (4.36 < ugm3_to_ppm 5000 "co" ∧ ugm3_to_ppm 5000 "co" < 4.37) ∧
    truncateConc 5000 "co" = some 4.3 ∧
    findRow 4.3 (BREAKPOINTS "co") = some ((0.0, 4.4), (0, 50)) ∧
    calculate_sub_index (some 5000) "co" = some 49 ∧
    calculate_sub_index (some 12) "pm2_5" = some 56 ∧
    calculate_sub_index (some 600) "pm10" = some 496 ∧
    calculate_overall_aqi [("pm2_5", some 12), ("pm10", some 600), ("co", some 5000)] =
      some 496 := by
  refine ⟨⟨?_, ?_⟩, ?_, ?_, ?_, ?_, ?_, ?_⟩
  · simp [ugm3_to_ppm, ugm3_to_ppb, MW]
    norm_num
  · simp [ugm3_to_ppm, ugm3_to_ppb, MW]
    norm_num
  · rw [truncateConc_co]
    norm_num
  · simp [BREAKPOINTS, findRow]
    norm_num
  · simp [calculate_sub_index, truncateConc, ugm3_to_ppm, ugm3_to_ppb, MW, BREAKPOINTS,
      subIndexFromTrunc, findRow, interp, pyRound]
    norm_num [Int.fract]
  · simp [calculate_sub_index, truncateConc, ugm3_to_ppm, ugm3_to_ppb, MW, BREAKPOINTS,
      subIndexFromTrunc, findRow, interp, pyRound]
    norm_num [Int.fract]
  · simp [calculate_sub_index, truncateConc, ugm3_to_ppm, ugm3_to_ppb, MW, BREAKPOINTS,
      subIndexFromTrunc, findRow, interp, pyRound]
    norm_num [Int.fract]
  · simp [calculate_overall_aqi, validIndicesOf, subIndicesOf, pollutants, recordLookup,
      calculate_sub_index, truncateConc, ugm3_to_ppm, ugm3_to_ppb, MW, BREAKPOINTS,
      subIndexFromTrunc, findRow, interp, pyRound]
    norm_num [Int.fract, List.filterMap_cons, List.max?_cons', List.foldl, max_def]

/-- C1: `calculate_overall_aqi` computes the sub-indices of the recognized
pollutants present in the record, and returns the maximum of the defined
ones (`none` when no sub-index is defined); a single-pollutant record yields
that pollutant's sub-index. -/
theorem overall_aqi_max (row : Record) :
    (validIndicesOf row = [] → calculate_overall_aqi row = none) ∧
    (∀ m : ℤ, calculate_overall_aqi row = some m →
      m ∈ validIndicesOf row ∧ ∀ x ∈ validIndicesOf row, x ≤ m) ∧
    (validIndicesOf row ≠ [] → ∃ m : ℤ, calculate_overall_aqi row = some m) ∧
    (∀ (p : String) (c : Option ℚ), p ∈ pollutants →
      calculate_overall_aqi [(p, c)] = calculate_sub_index c p) := by
  refine ⟨?_, ?_, ?_, ?_⟩
  · intro h
    unfold calculate_overall_aqi
    rw [h]
    rfl
  · intro m hm
    unfold calculate_overall_aqi at hm
    constructor
    · exact List.max?_mem (fun a b => max_choice a b) hm
    · exact (List.max?_le_iff (fun a b c => max_le_iff) hm).1 (le_refl m)
  · intro h
    unfold calculate_overall_aqi
    cases hx : (validIndicesOf row).max? with
    | none => exact absurd (List.max?_eq_none_iff.1 hx) h
    | some m => exact ⟨m, rfl⟩
  · intro p c hp
    have hs := validIndicesOf_single p c hp
    unfold calculate_overall_aqi validIndicesOf
    rw [hs]
    cases hz : calculate_sub_index c p with
    | none => simp
    | some z => simp [List.max?]

/-- Witness for C1: a record holding only pm10 yields exactly the pm10
sub-index. -/
theorem overall_aqi_max_witness :
    calculate_overall_aqi [("pm10", some 600)] = calculate_sub_index (some 600) "pm10" :=
  (overall_aqi_max [("pm10", some 600)]).2.2.2 "pm10" (some 600) (by simp [pollutants])

/-- C2: the sub-index computation is conversion (pass-through when the
pollutant has no molar-mass entry, `· 24.45 / molar_mass` otherwise, with a
further `/ 1000` for ppm), then the per-pollutant floor-truncation, then the
breakpoint-row lookup `cl ≤ tc ≤ ch`, then
`round(((ah-al)/(ch-cl))·(tc-cl)+al)`. -/
theorem sub_index_formula :
    (∀ (u : ℚ) (p : String), MW p = none → ugm3_to_ppb u p = u) ∧
    (∀ (u : ℚ) (p : String), ugm3_to_ppm u p = ugm3_to_ppb u p / 1000) ∧
    (∀ c : ℚ, truncateConc c "pm2_5" = some ((⌊c * 10⌋ : ℚ) / 10)) ∧
    (∀ c : ℚ, truncateConc c "pm10" = some ((⌊c⌋ : ℚ))) ∧
    (∀ c : ℚ, truncateConc c "co" = some ((⌊c * 24.45 / 28.01 / 1000 * 10⌋ : ℚ) / 10)) ∧
    (∀ c : ℚ, truncateConc c "no2" = some ((⌊c * 24.45 / 46.01⌋ : ℚ))) ∧
    (∀ c : ℚ, truncateConc c "o3" = some ((⌊c * 24.45 / 48.00⌋ : ℚ))) ∧
    (∀ c : ℚ, truncateConc c "so2" = some ((⌊c * 24.45 / 64.07⌋ : ℚ))) ∧
    (∀ (p : String) (c tc : ℚ) (r : Row), truncateConc c p = some tc →
      findRow tc (BREAKPOINTS p) = some r →
      (r ∈ BREAKPOINTS p ∧ r.1.1 ≤ tc ∧ tc ≤ r.1.2) ∧
      calculate_sub_index (some c) p =
        some (pyRound ((((r.2.2 - r.2.1 : ℤ) : ℚ) / (r.1.2 - r.1.1)) * (tc - r.1.1) +
          (r.2.1 : ℚ)))) := by
  refine ⟨?_, ?_, truncateConc_pm2_5, truncateConc_pm10, truncateConc_co,
    truncateConc_no2, truncateConc_o3, truncateConc_so2, ?_⟩
  · intro u p h
    simp only [ugm3_to_ppb, h]
  · intro u p
    rfl
  · intro p c tc r ht hf
    refine ⟨findRow_eq_some hf, ?_⟩
    have h2 := subIndexFromTrunc_of_findRow hf
    simp only [interp] at h2
    simp only [calculate_sub_index, ht]
    exact h2

/-- Witness for C2: pass-through for pm10, and the co row formula at
5000 µg/m³. -/
theorem sub_index_formula_witness :
    ugm3_to_ppb 7 "pm10" = 7 ∧
    calculate_sub_index (some 5000) "co" =
      some (pyRound (((((0, 50) : ℤ × ℤ).2 - ((0, 50) : ℤ × ℤ).1 : ℤ) : ℚ) /
        (((0.0, 4.4) : ℚ × ℚ).2 - ((0.0, 4.4) : ℚ × ℚ).1) *
        ((4.3 : ℚ) - ((0.0, 4.4) : ℚ × ℚ).1) + (((0, 50) : ℤ × ℤ).1 : ℚ))) := by
  constructor
  · exact sub_index_formula.1 7 "pm10" (by simp [MW])
  · exact (sub_index_formula.2.2.2.2.2.2.2.2 "co" 5000 4.3 ((0.0, 4.4), (0, 50))
      (by rw [truncateConc_co]; norm_num)
      (by simp [BREAKPOINTS, findRow]; norm_num)).2

/-- C5 counterexample: the o3 table does not cover the bands all the way up
to 401–500 — its index bands stop at 201–300. -/
theorem o3_bands_miss_401_500 :
    ((401, 500) : ℤ × ℤ) ∉ (BREAKPOINTS "o3").map Prod.snd := by
  simp [BREAKPOINTS]

/-- The standard AQI index bands, in order. -/
def standardBands : List (ℤ × ℤ) :=
  [(0, 50), (51, 100), (101, 150), (151, 200), (201, 300), (301, 400), (401, 500)]

/-- C5 (amended): within each pollutant's table the concentration ranges
are sorted ascending, non-overlapping and contiguous at the pollutant's
truncation granularity, and the index bands form an initial prefix of the
ascending standard bands 0–50, …, 401–500; every pollutant except o3
reaches 401–500, while o3's bands stop at 201–300. -/
theorem breakpoints_invariants (p : String) (hp : p ∈ pollutants) :
    List.Chain' (fun r r' => r'.1.1 = r.1.2 + stepOf p) (BREAKPOINTS p) ∧
    RowsSep (BREAKPOINTS p) ∧
    (BREAKPOINTS p).map Prod.snd = standardBands.take (BREAKPOINTS p).length ∧
    (p ≠ "o3" → ((BREAKPOINTS p).map Prod.snd).getLast? = some (401, 500)) ∧
    (p = "o3" → ((BREAKPOINTS p).map Prod.snd).getLast? = some (201, 300)) := by
  refine ⟨tables_chain p hp, tables_sep p hp, ?_, ?_, ?_⟩ <;>
    rw [mem_pollutants_iff] at hp <;>
    rcases hp with rfl | rfl | rfl | rfl | rfl | rfl <;>
    simp [BREAKPOINTS, standardBands]

/-- Witness for C5 (amended): the co table is separated and its bands reach
401–500. -/
theorem breakpoints_invariants_witness :
    RowsSep (BREAKPOINTS "co") ∧
    ((BREAKPOINTS "co").map Prod.snd).getLast? = some (401, 500) :=
  ⟨(breakpoints_invariants "co" (by simp [pollutants])).2.1,
   (breakpoints_invariants "co" (by simp [pollutants])).2.2.2.1 (by simp)⟩

/-- C9: the engine is total — both functions return a (possibly undefined)
value on every input, the breakpoint table of each recognized pollutant is
nonempty (so the `[-1]` last-row access is well-defined), and every row has
`cl ≠ ch` (so the interpolation divisor `ch - cl` is nonzero). -/
theorem engine_total (row : Record) (conc : Option ℚ) (p : String) :
    (calculate_overall_aqi row = none ∨ ∃ m : ℤ, calculate_overall_aqi row = some m) ∧
    (calculate_sub_index conc p = none ∨ ∃ z : ℤ, calculate_sub_index conc p = some z) ∧
    (p ∈ pollutants → BREAKPOINTS p ≠ [] ∧ ∀ r ∈ BREAKPOINTS p, r.1.1 ≠ r.1.2) := by
  refine ⟨?_, ?_, ?_⟩
  · cases h : calculate_overall_aqi row with
    | none => exact Or.inl rfl
    | some m => exact Or.inr ⟨m, rfl⟩
  · cases h : calculate_sub_index conc p with
    | none => exact Or.inl rfl
    | some z => exact Or.inr ⟨z, rfl⟩
  · intro hp
    constructor
    · obtain ⟨r0, h0, h1⟩ := tables_head p hp
      intro hnil
      rw [hnil] at h0
      cases h0
    · intro r hr
      exact ne_of_lt (tables_wf p hp r hr).1

/-- Witness for C9: the guard facts at the pollutant co. -/
theorem engine_total_witness :
    BREAKPOINTS "co" ≠ [] ∧ ∀ r ∈ BREAKPOINTS "co", r.1.1 ≠ r.1.2 :=
  (engine_total [] none "co").2.2 (by simp [pollutants])

/-- C4: the sub-index is undefined exactly when the concentration is
missing/NaN, the pollutant is unrecognized, or the converted-and-truncated
value falls strictly below the lowest tabulated `cl`; in particular every
negative concentration of a recognized pollutant is undefined. -/
theorem sub_index_undefined_iff (conc : Option ℚ) (p : String) :
    (calculate_sub_index conc p = none ↔
      conc = none ∨ p ∉ pollutants ∨
        ∃ c tc : ℚ, conc = some c ∧ truncateConc c p = some tc ∧ tc < lowCl p) ∧
    (∀ c : ℚ, conc = some c → c < 0 → p ∈ pollutants →
      calculate_sub_index conc p = none) := by
  constructor
  · constructor
    · intro h
      cases conc with
      | none => exact Or.inl rfl
      | some c =>
        by_cases hp : p ∈ pollutants
        · right
          right
          cases ht : truncateConc c p with
          | none => exact absurd hp ((truncateConc_none_iff c p).1 ht)
          | some tc =>
            refine ⟨c, tc, rfl, ht, ?_⟩
            by_contra hge
            push_neg at hge
            obtain ⟨a, ha⟩ := truncate_grid p hp c tc ht
            obtain ⟨r0, h0, hr0⟩ := tables_head p hp
            obtain ⟨z, hz⟩ := subIndexFromTrunc_defined (stepOf p) (stepOf_pos p) a ha
              (tables_grid p hp) (tables_chain p hp) h0 (by rw [hr0]; exact hge)
            simp only [calculate_sub_index, ht] at h
            rw [h] at hz
            cases hz
        · exact Or.inr (Or.inl hp)
    · intro h
      rcases h with rfl | hnp | ⟨c, tc, rfl, ht, hlow⟩
      · rfl
      · cases conc with
        | none => rfl
        | some c =>
          have h2 := (truncateConc_none_iff c p).2 hnp
          simp only [calculate_sub_index, h2]
      · exact sub_index_below_table ht hlow
  · intro c hc hneg hp
    subst hc
    cases ht : truncateConc c p with
    | none => simp only [calculate_sub_index, ht]
    | some tc =>
      have htneg := truncate_neg p hp c tc hneg ht
      exact sub_index_below_table ht (by rw [tables_lowCl p hp]; exact htneg)

/-- Witness for C4: pm10 at −5 µg/m³ is undefined. -/
theorem sub_index_undefined_iff_witness :
    calculate_sub_index (some (-5)) "pm10" = none :=
  (sub_index_undefined_iff (some (-5)) "pm10").2 (-5) rfl (by norm_num)
    (by simp [pollutants])

/-- C6: for each recognized pollutant, the sub-index is monotonically
non-decreasing in the concentration wherever both results are defined,
across row boundaries and into the saturation region. -/
theorem sub_index_monotone (p : String) (hp : p ∈ pollutants) (c1 c2 : ℚ) (h : c1 ≤ c2)
    (z1 z2 : ℤ) (h1 : calculate_sub_index (some c1) p = some z1)
    (h2 : calculate_sub_index (some c2) p = some z2) : z1 ≤ z2 := by
  cases ht1 : truncateConc c1 p with
  | none =>
    simp only [calculate_sub_index, ht1] at h1
    cases h1
  | some t1 =>
    cases ht2 : truncateConc c2 p with
    | none =>
      simp only [calculate_sub_index, ht2] at h2
      cases h2
    | some t2 =>
      simp only [calculate_sub_index, ht1] at h1
      simp only [calculate_sub_index, ht2] at h2
      exact subIndexFromTrunc_mono (tables_wf p hp) (tables_sep p hp)
        (tables_last_dom_all p hp) (truncate_mono p hp c1 c2 h t1 t2 ht1 ht2) h1 h2

/-- Witness for C6: pm10 at 10 µg/m³ yields 9, at 600 µg/m³ yields 496. -/
theorem sub_index_monotone_witness : (9 : ℤ) ≤ 496 :=
  sub_index_monotone "pm10" (by simp [pollutants]) 10 600 (by norm_num) 9 496
    (by simp [calculate_sub_index, truncateConc, BREAKPOINTS, subIndexFromTrunc, findRow,
          interp, pyRound]
        norm_num [Int.fract])
    (by simp [calculate_sub_index, truncateConc, BREAKPOINTS, subIndexFromTrunc, findRow,
          interp, pyRound]
        norm_num [Int.fract])

/-- C8: every defined sub-index is an integer in 0–500 (the codomain of the
embedding is ℤ, matching Python's `round`/`500`), and a value whose
truncation lands in the row `(cl,ch)→(al,ah)` yields a sub-index in
`[al, ah]`. -/
theorem sub_index_range_claim (conc : Option ℚ) (p : String) :
    (∀ z : ℤ, calculate_sub_index conc p = some z → 0 ≤ z ∧ z ≤ 500) ∧
    (∀ (c tc : ℚ) (r : Row), conc = some c → truncateConc c p = some tc →
      findRow tc (BREAKPOINTS p) = some r →
      calculate_sub_index conc p = some (pyRound (interp r tc)) ∧
      r.2.1 ≤ pyRound (interp r tc) ∧ pyRound (interp r tc) ≤ r.2.2) := by
  constructor
  · intro z hz
    cases conc with
    | none =>
      simp only [calculate_sub_index] at hz
      cases hz
    | some c =>
      cases ht : truncateConc c p with
      | none =>
        simp only [calculate_sub_index, ht] at hz
        cases hz
      | some tc =>
        simp only [calculate_sub_index, ht] at hz
        exact subIndexFromTrunc_range (tables_wf p (mem_pollutants_of_truncate ht)) hz
  · intro c tc r hc ht hf
    subst hc
    obtain ⟨hm, hx1, hx2⟩ := findRow_eq_some hf
    have hp := mem_pollutants_of_truncate ht
    obtain ⟨hlt, hal, hab, hah⟩ := tables_wf p hp r hm
    refine ⟨?_, pyRound_interp_bounds hlt hab hx1 hx2⟩
    simp only [calculate_sub_index, ht]
    exact subIndexFromTrunc_of_findRow hf

/-- Witness for C8: pm2_5 at 12 µg/m³ yields 56, inside 0–500. -/
theorem sub_index_range_witness : (0 : ℤ) ≤ 56 ∧ (56 : ℤ) ≤ 500 :=
  (sub_index_range_claim (some 12) "pm2_5").1 56
    (by simp [calculate_sub_index, truncateConc, BREAKPOINTS, subIndexFromTrunc, findRow,
          interp, pyRound]
        norm_num [Int.fract])

end Aqi
